import Mathlib

/-!
# TCP_Server_Example.cpp : frame decoder, session log and log-file naming

A shallow embedding of the read loop of `main` (lines 292-391 of
`src/TCP_Server_Example.cpp`) and of `generateNewFilename` (lines 473-485).

* a `std::string` is a `List Char`;
* an `unsigned char` is a `Fin 256`; an `int` is an `Int`, or a `Nat` for the counter
  `identifier` that only grows from `1`, and the range of a 32-bit `int` is checked
  where the source can leave it (`std::stoi`, `identifier++`);
* the environment is explicit: `Server.csvOpen` is whether the unchecked
  `csvFile.open` of line 258 succeeded (the insertions write only then), and the probe
  `std::ifstream(name)` of line 482 is a function of the state of each file;
* an access the C++ standard leaves undefined (an index past the end of
  `clientData`, an iterator range past its end, a signed overflow) or an uncaught
  exception ends the run with an `Except.error` naming the place.
-/

namespace TCPServer

/-! ## Data model -/

/-- An `unsigned char`: one byte of `buffer` after `static_cast<unsigned char>`. -/
abbrev Byte := Fin 256

/-- A `std::string`. -/
abbrev Str := List Char

/-- Largest value of a 32-bit `int`. -/
def INT_MAX : Int := 2147483647

/-- Smallest value of a 32-bit `int`. -/
def INT_MIN : Int := -2147483648

/-- The ways a run of the read loop can leave defined behaviour. -/
inductive Fault where
  /-- Access `clientData[i]` with `i` not below `clientData.size()`. -/
  | outOfRange (i : Int)
  /-- Construction of `Data` from an iterator range that is not inside `clientData`. -/
  | badRange
  /-- Exception `std::invalid_argument` thrown by `std::stoi`. -/
  | invalidArgument
  /-- Exception `std::out_of_range` thrown by `std::stoi`. -/
  | stoiOutOfRange
  /-- Signed overflow of an `int`. -/
  | intOverflow
  deriving DecidableEq, Repr

/-! ## Hexadecimal text: `operator<<` with `std::hex` and `std::stoi(_, nullptr, 16)` -/

/-- Digits written by `ss << std::hex << v` for an unsigned `v` (lowercase, no prefix). -/
def hexText (v : Nat) : Str := Nat.toDigits 16 v

/-- Effect of `std::setw(2) << std::setfill('0')` on the text of one insertion:
pad on the left with `'0'` up to two characters, never truncate. -/
def setw2fill0 (s : Str) : Str := List.replicate (2 - s.length) '0' ++ s

/-- The insertion `ss << std::hex << std::setw(2) << std::setfill('0') << v; ss.str()`
(lines 300-301, 305-307 and 352-354). -/
def formatHex (v : Nat) : Str := setw2fill0 (hexText v)

/-- Conversion `static_cast<unsigned int>` of an `int`. -/
def toUnsigned (x : Int) : Nat := (x % 4294967296).toNat

/-- Function `isspace` in the "C" locale. -/
def isspace (c : Char) : Bool :=
  c.toNat = 32 || (9 ≤ c.toNat && c.toNat ≤ 13)

/-- Value of a character read as a base-16 digit, if it is one. -/
def hexDigitValue (c : Char) : Option Nat :=
  if 48 ≤ c.toNat ∧ c.toNat ≤ 57 then some (c.toNat - 48)
  else if 97 ≤ c.toNat ∧ c.toNat ≤ 102 then some (c.toNat - 87)
  else if 65 ≤ c.toNat ∧ c.toNat ≤ 70 then some (c.toNat - 55)
  else none

/-- Longest run of base-16 digits at the start of the text, accumulated from the
value `acc`; the flag tells whether a digit was read. -/
def readHexDigits : Str → Nat → Bool → Nat × Bool
  | [], acc, seen => (acc, seen)
  | c :: cs, acc, seen =>
    match hexDigitValue c with
    | some d => readHexDigits cs (16 * acc + d) true
    | none => (acc, seen)

/-- Drop an optional `0x` / `0X` prefix, which base 16 accepts when a digit follows. -/
def dropHexPrefix : Str → Str
  | z :: x :: c :: cs =>
    if z = '0' ∧ (x = 'x' ∨ x = 'X') ∧ (hexDigitValue c).isSome then c :: cs
    else z :: x :: c :: cs
  | s => s

/-- Read an optional sign: the flag is `true` for `-`. -/
def splitSign : Str → Bool × Str
  | [] => (false, [])
  | c :: r => if c = '-' then (true, r) else if c = '+' then (false, r) else (false, c :: r)

/-- The subject sequence of `strtol(_, _, 16)`: leading white space, an optional sign,
an optional `0x`, then the digits. The result is the mathematical value, or `none`
when no conversion can be performed. -/
def strtolHex (s : Str) : Option Int :=
  let signed := splitSign (s.dropWhile isspace)
  let digits := readHexDigits (dropHexPrefix signed.2) 0 false
  if digits.2 then some (if signed.1 then -(digits.1 : Int) else (digits.1 : Int)) else none

/-- Call `std::stoi(str, nullptr, 16)` (lines 333 and 348): the value, or the
exception it throws. -/
def stoi (str : Str) : Except Fault Int :=
  match strtolHex str with
  | none => .error .invalidArgument
  | some v => if INT_MIN ≤ v ∧ v ≤ INT_MAX then .ok v else .error .stoiOutOfRange

/-- Extraction `std::stringstream cs(str); cs >> std::hex >> TYPE` (lines 326-328):
a failed conversion stores `0`, a value out of range stores the nearest bound. -/
def extractHex (str : Str) : Int :=
  match strtolHex str with
  | none => 0
  | some v => if v < INT_MIN then INT_MIN else if INT_MAX < v then INT_MAX else v

/-! ## The frame decoder (lines 323-386) -/

/-- The four branches of `switch (TYPE)` (lines 368-386), named after what each prints:
"TCP connection with RFID reader successful", "TAG Read", "Heartbeat",
"The RFID type is not recognized". -/
inductive Event where
  | connectionEstablished
  | tagRead
  | heartbeat
  | unrecognized
  deriving DecidableEq, Repr

/-- The statement `switch (TYPE)` with cases `0x3a`, `0x17`, `0x40` and `default`. -/
def classify (TYPE : Int) : Event :=
  if TYPE = 0x3a then .connectionEstablished
  else if TYPE = 0x17 then .tagRead
  else if TYPE = 0x40 then .heartbeat
  else .unrecognized

/-- What one pass of the decoder prints: the local variables of lines 324-362 and the
branch taken at lines 358 and 368. -/
structure Decoded where
  /-- Printed as `Head (hex)`: `clientData[0]`. -/
  Head : Str
  /-- Printed as `Type (hex)`: the integer extracted from `clientData[1]`. -/
  TYPE : Int
  /-- Printed as `Len (hex)`: `clientData[2]`. -/
  Len : Str
  /-- The integer `std::stoi(clientData[2], nullptr, 16)`. -/
  Len_int : Int
  /-- Printed as `Data (hex)`: the vector `Data`. -/
  Data : List Str
  /-- Printed as `CRC (hex)`: `clientData[Len_int + 3]`. -/
  CRC : Str
  /-- Printed as `Summed value (hex)`: the string `checksum`. -/
  checksum : Str
  /-- Whether `checksum == CRC` held: `true` prints "Valid data. (Checksums match)",
  `false` prints "Invalid data. (Checksums do not match)". -/
  valid : Bool
  /-- The branch of `switch (TYPE)` taken. -/
  event : Event
  deriving DecidableEq, Repr

/-- Access `clientData[i]` of a `std::vector`, undefined outside `0 .. size()-1`. -/
def elemAt (clientData : List Str) (i : Int) : Except Fault Str :=
  if i < 0 then .error (.outOfRange i)
  else
    match clientData[i.toNat]? with
    | some t => .ok t
    | none => .error (.outOfRange i)

/-- Construction `std::vector<std::string> Data(clientData.begin() + 3,
clientData.begin() + 3 + Len_int)` (line 335), defined when the range lies inside
`clientData`. -/
def subVector (clientData : List Str) (Len_int : Int) : Except Fault (List Str) :=
  if 0 ≤ Len_int ∧ 3 + Len_int ≤ clientData.length then
    .ok ((clientData.drop 3).take Len_int.toNat)
  else .error .badRange

/-- The loop `for (int i = 1; i < Len_int + 3; i++) crc_sum += std::stoi(clientData[i],
nullptr, 16)` (lines 347-349), with the number of iterations still to run, the current
`i` and the current `crc_sum`. (The sum cannot leave the range of `int`: every value
added is at most `0xff` and at most 257 are added.) -/
def crcLoop (clientData : List Str) : Nat → Int → Int → Except Fault Int
  | 0, _, crc_sum => .ok crc_sum
  | n + 1, i, crc_sum => do
    let t ← elemAt clientData i
    let v ← stoi t
    crcLoop clientData n (i + 1) (crc_sum + v)

/-- Lines 323-386 on the token vector `clientData`: extract the fields, compute and
compare the checksum, classify the type. -/
def decodeFrame (clientData : List Str) : Except Fault Decoded := do
  let Head ← elemAt clientData 0
  let t1 ← elemAt clientData 1
  let TYPE := extractHex t1
  let Len ← elemAt clientData 2
  let Len_int ← stoi Len
  let Data ← subVector clientData Len_int
  let CRC ← elemAt clientData (Len_int + 3)
  let crc_sum ← crcLoop clientData (Len_int + 3 - 1).toNat 1 0
  let checksum_int := Int.land crc_sum 0xFF
  let checksum := formatHex (toUnsigned checksum_int)
  pure { Head := Head, TYPE := TYPE, Len := Len, Len_int := Len_int, Data := Data,
         CRC := CRC, checksum := checksum, valid := decide (checksum = CRC),
         event := classify TYPE }

/-! ## The read loop (lines 292-391) -/

/-- The two globals the read loop uses: the stream `csvFile` and the vector
`clientData`. The call `csvFile.open(filename, std::ios::out | std::ios::app)` of line
258 is never checked, so the loop runs whether or not it succeeded: `csvOpen` records
its outcome, and `csvFile` is the text appended to the log file so far. -/
structure Server where
  csvOpen : Bool
  csvFile : Str
  clientData : List Str
  deriving DecidableEq, Repr

/-- An insertion `csvFile << text`: on an open stream the text is appended (a write to
an open stream is taken to succeed); on a stream whose `open` failed the insertion
writes nothing. -/
def csvWrite (s : Server) (text : Str) : Server :=
  if s.csvOpen then { s with csvFile := s.csvFile ++ text } else s

/-- Body of `for (int i = 0; i < valRead; i++)` (lines 295-308) for one byte: insert
the token and a comma into `csvFile` (line 302), push the token on `clientData`. -/
def storeByte (s : Server) (value : Byte) : Server :=
  let s1 := csvWrite (csvWrite s (formatHex value.val)) [',']
  { s1 with clientData := s1.clientData ++ [formatHex value.val] }

/-- Body of the `while` loop for one chunk `buffer[0 .. valRead-1]`: store every byte,
insert the newline (line 314), decode, then `clientData.clear()` (line 390). -/
def handleChunk (s : Server) (buffer : List Byte) : Except Fault (Decoded × Server) := do
  let s1 := buffer.foldl storeByte s
  let s2 : Server := csvWrite s1 ['\n']
  let report ← decodeFrame s2.clientData
  pure (report, { s2 with clientData := [] })

/-- The loop `while ((valRead = read(...)) > 0)` over the successive results of `read`:
an empty result (`valRead = 0`, the peer closed) ends the loop. Returns the reports
printed, in order, and the final globals. -/
def readLoop : List (List Byte) → Server → Except Fault (List Decoded × Server)
  | [], s => .ok ([], s)
  | buffer :: rest, s =>
    if buffer.length = 0 then .ok ([], s)
    else do
      let (report, s1) ← handleChunk s buffer
      let (reports, s2) ← readLoop rest s1
      pure (report :: reports, s2)

/-- Globals when the read loop starts, `opened` being the outcome of `csvFile.open` at
line 258: nothing appended yet, `clientData` empty. -/
def Server.afterOpen (opened : Bool) : Server :=
  { csvOpen := opened, csvFile := [], clientData := [] }

/-- Globals when the read loop starts after a successful `csvFile.open`. -/
def Server.start : Server := Server.afterOpen true

/-- Decoding one chunk alone: one pass of the loop body from an empty `clientData`. -/
def decode (chunk : List Byte) : Except Fault Decoded :=
  (handleChunk Server.start chunk).map Prod.fst

/-! ## Log-file naming: `generateNewFilename` (lines 473-485) -/

/-- Text written by `filenameSS << identifier` for a non-negative `int`. -/
def decimalText (identifier : Nat) : Str := Nat.toDigits 10 identifier

/-- The name built at lines 478-480: `baseFilename`, `_`, the identifier, `.csv`. -/
def numberedName (baseFilename : Str) (identifier : Nat) : Str :=
  baseFilename ++ ['_'] ++ decimalText identifier ++ ['.', 'c', 's', 'v']

/-- What the file system holds under a name while `generateNewFilename` runs: no file,
a file that cannot be opened for reading (for lack of permission, say), or a file that
can be opened for reading. -/
inductive FileState where
  | absent
  | unreadable
  | readable
  deriving DecidableEq, Repr

/-- The probe `std::ifstream(filename.c_str())` of line 482 converted to `bool`: true
exactly when the file could be opened for reading. An existing file that cannot be
opened gives false, like a missing one. -/
def ifstreamOpens (fs : Str → FileState) (name : Str) : Bool :=
  decide (fs name = FileState.readable)

/-- The `do ... while (std::ifstream(filename.c_str()))` loop from the current value of
`identifier`. `canOpen` is the outcome of the probe `std::ifstream(name)` for each name
(see `ifstreamOpens`), unchanged during the call. `identifier` is an `int`, so
`identifier++` is undefined at `2147483647`; the first argument bounds the number of
iterations, which the range of `int` makes finite. -/
def probeLoop (canOpen : Str → Bool) (baseFilename : Str) : Nat → Nat → Except Fault Str
  | 0, _ => .error .intOverflow
  | fuel + 1, identifier =>
    let filename := numberedName baseFilename identifier
    if 2147483647 ≤ identifier then .error .intOverflow
    else if canOpen filename then probeLoop canOpen baseFilename fuel (identifier + 1)
    else .ok filename

/-- Function `generateNewFilename`: `identifier` starts at `1`. -/
def generateNewFilename (canOpen : Str → Bool) (baseFilename : Str) : Except Fault Str :=
  probeLoop canOpen baseFilename 2147483647 1

/-! ## Vocabulary of the specification -/

/-- Value of the byte at a position of a chunk (`0` past the end). -/
def byteAt (chunk : List Byte) (i : Nat) : Nat := (chunk.getD i 0).val

/-- Sum of the byte values at positions `first .. last` inclusive. -/
def byteSum (chunk : List Byte) (first last : Nat) : Nat :=
  ((List.range' first (last + 1 - first)).map (byteAt chunk)).sum

/-- A chunk is well formed when it holds at least `4 + L` bytes, `L` the value of byte 2. -/
def WellFormed (chunk : List Byte) : Prop := 4 + byteAt chunk 2 ≤ chunk.length

instance (chunk : List Byte) : Decidable (WellFormed chunk) := by
  unfold WellFormed; infer_instance

/-- The token of a byte: two lowercase hexadecimal digits. -/
def token (b : Byte) : Str := formatHex b.val

/-- Equality of results of `Except` is decidable. -/
instance instDecidableEqExcept {ε α : Type} [DecidableEq ε] [DecidableEq α] :
    DecidableEq (Except ε α)
  | .ok a, .ok b =>
    if h : a = b then isTrue (by rw [h]) else isFalse (fun e => h (Except.ok.inj e))
  | .error a, .error b =>
    if h : a = b then isTrue (by rw [h]) else isFalse (fun e => h (Except.error.inj e))
  | .ok _, .error _ => isFalse (fun e => Except.noConfusion e)
  | .error _, .ok _ => isFalse (fun e => Except.noConfusion e)

/-- The report of a well-formed chunk written from its bytes: what `decode` is proved
to return. -/
def reportOf (chunk : List Byte) : Decoded :=
  { Head := formatHex (byteAt chunk 0),
    TYPE := (byteAt chunk 1 : Int),
    Len := formatHex (byteAt chunk 2),
    Len_int := (byteAt chunk 2 : Int),
    Data := ((chunk.map token).drop 3).take (byteAt chunk 2),
    CRC := formatHex (byteAt chunk (3 + byteAt chunk 2)),
    checksum := formatHex (byteSum chunk 1 (2 + byteAt chunk 2) % 256),
    valid := decide (byteSum chunk 1 (2 + byteAt chunk 2) % 256
                      = byteAt chunk (3 + byteAt chunk 2)),
    event := classify (byteAt chunk 1 : Int) }

/-- The text the read loop appends to an open `csvFile` for one chunk, from the bytes:
every token followed by a comma, then one newline. -/
def csvRecord (chunk : List Byte) : Str :=
  (chunk.map (fun b => token b ++ [','])).flatten ++ ['\n']

/-- The frame `[header, type, length, payload..., checksum]`. -/
def frame (header type length : Byte) (payload : List Byte) (checksum : Byte) : List Byte :=
  header :: type :: length :: (payload ++ [checksum])

/-- Sum of the values of a list of bytes. -/
def sumBytes (payload : List Byte) : Nat := (payload.map Fin.val).sum

/-- Whether a file of that name exists, readable or not. -/
def fileExists (fs : Str → FileState) (name : Str) : Bool :=
  decide (fs name ≠ FileState.absent)

/-- A directory whose only file is `log_1.csv`, which can be read. -/
def readableLog1 : Str → FileState :=
  fun name => if name = "log_1.csv".toList then FileState.readable else FileState.absent

/-- A directory whose only file is `log_1.csv`, which exists but cannot be opened for
reading. -/
def unreadableLog1 : Str → FileState :=
  fun name => if name = "log_1.csv".toList then FileState.unreadable else FileState.absent

/-- A directory that holds a readable file for every name of at most 15 characters and
nothing else: every `_<n>.csv` with `n < 10000000000` is there. -/
def crowdedDirectory : Str → FileState :=
  fun name => if name.length ≤ 15 then FileState.readable else FileState.absent

/-! # Lemmas -/

/-! ## Hexadecimal tokens of bytes -/

theorem hexText_of_lt_16 (v : Nat) (h : v < 16) : hexText v = [Nat.digitChar v] := by
  interval_cases v <;> rfl

theorem hexText_of_ge_16 (v : Nat) (h1 : 16 ≤ v) (h : v < 256) :
    hexText v = [Nat.digitChar (v / 16), Nat.digitChar (v % 16)] := by
  unfold hexText Nat.toDigits
  have e1 : v / 16 ≠ 0 := by omega
  have e2 : v / 16 / 16 = 0 := by omega
  have e3 : v / 16 % 16 = v / 16 := by omega
  obtain ⟨w, rfl⟩ : ∃ w, v = w + 1 := ⟨v - 1, by omega⟩
  simp only [Nat.toDigitsCore, e1, if_false, e2, e3, if_true]

theorem formatHex_of_lt_256 (v : Nat) (h : v < 256) :
    formatHex v = [Nat.digitChar (v / 16), Nat.digitChar (v % 16)] := by
  unfold formatHex setw2fill0
  by_cases h1 : v < 16
  · rw [hexText_of_lt_16 v h1]
    have e1 : v / 16 = 0 := by omega
    have e2 : v % 16 = v := by omega
    rw [e1, e2]; rfl
  · rw [hexText_of_ge_16 v (by omega) h]; rfl

theorem hexDigitValue_digitChar (d : Nat) (h : d < 16) :
    hexDigitValue (Nat.digitChar d) = some d := by
  interval_cases d <;> rfl

theorem digitChar_plain (d : Nat) (h : d < 16) :
    Nat.digitChar d ≠ '-' ∧ Nat.digitChar d ≠ '+' ∧ isspace (Nat.digitChar d) = false := by
  interval_cases d <;> decide

theorem strtolHex_formatHex (v : Nat) (h : v < 256) :
    strtolHex (formatHex v) = some (v : Int) := by
  rw [formatHex_of_lt_256 v h]
  have hd1 : v / 16 < 16 := by omega
  have hd2 : v % 16 < 16 := Nat.mod_lt _ (by norm_num)
  obtain ⟨a1, a2, a3⟩ := digitChar_plain (v / 16) hd1
  simp [strtolHex, List.dropWhile, a3, a1, a2, splitSign, dropHexPrefix, readHexDigits,
    hexDigitValue_digitChar, hd1, hd2]
  omega

theorem stoi_formatHex (v : Nat) (h : v < 256) : stoi (formatHex v) = .ok (v : Int) := by
  unfold stoi
  rw [strtolHex_formatHex v h]
  have : INT_MIN ≤ (v : Int) ∧ (v : Int) ≤ INT_MAX := by
    unfold INT_MIN INT_MAX; omega
  simp [this]

theorem extractHex_formatHex (v : Nat) (h : v < 256) : extractHex (formatHex v) = (v : Int) := by
  unfold extractHex
  rw [strtolHex_formatHex v h]
  have h1 : ¬ ((v : Int) < INT_MIN) := by unfold INT_MIN; omega
  have h2 : ¬ (INT_MAX < (v : Int)) := by unfold INT_MAX; omega
  simp [h1, h2]

theorem formatHex_inj (v w : Nat) (hv : v < 256) (hw : w < 256)
    (h : formatHex v = formatHex w) : v = w := by
  have e := strtolHex_formatHex v hv
  rw [h, strtolHex_formatHex w hw] at e
  exact_mod_cast (Option.some.inj e).symm

theorem byteAt_lt (chunk : List Byte) (i : Nat) : byteAt chunk i < 256 := (chunk.getD i 0).isLt

/-! ## The globals after the bytes of a chunk are stored -/

theorem storeByte_eq (s : Server) (value : Byte) :
    storeByte s value
      = { csvOpen := s.csvOpen,
          csvFile := if s.csvOpen then s.csvFile ++ (token value ++ [',']) else s.csvFile,
          clientData := s.clientData ++ [token value] } := by
  cases h : s.csvOpen <;> simp [storeByte, csvWrite, token, h]

theorem foldl_storeByte (buffer : List Byte) (s : Server) :
    buffer.foldl storeByte s
      = { csvOpen := s.csvOpen,
          csvFile := if s.csvOpen
            then s.csvFile ++ (buffer.map (fun b => token b ++ [','])).flatten
            else s.csvFile,
          clientData := s.clientData ++ buffer.map token } := by
  induction buffer generalizing s with
  | nil => cases h : s.csvOpen <;> simp [h] <;> (cases s; simp_all)
  | cons b bs ih =>
    rw [List.foldl_cons, ih, storeByte_eq]
    cases h : s.csvOpen <;> simp [h]

theorem foldl_storeByte_clientData (buffer : List Byte) (s : Server) :
    (buffer.foldl storeByte s).clientData = s.clientData ++ buffer.map token := by
  rw [foldl_storeByte]

theorem elemAt_tokens (chunk : List Byte) (i : Nat) (h : i < chunk.length) :
    elemAt (chunk.map token) (i : Int) = .ok (formatHex (byteAt chunk i)) := by
  unfold elemAt
  have h0 : ¬ ((i : Int) < 0) := by omega
  simp [h0, byteAt, token, List.getD, h]

theorem elemAt_tokens_ge (chunk : List Byte) (i : Nat) (h : chunk.length ≤ i) :
    elemAt (chunk.map token) (i : Int) = .error (.outOfRange i) := by
  unfold elemAt
  have h0 : ¬ ((i : Int) < 0) := by omega
  have h1 : chunk[i]? = none := List.getElem?_eq_none h
  simp [h0, h1]

theorem crcLoop_tokens (chunk : List Byte) (n i : Nat) (crc_sum : Int)
    (h : i + n ≤ chunk.length) :
    crcLoop (chunk.map token) n (i : Int) crc_sum
      = .ok (crc_sum + (((List.range' i n).map (byteAt chunk)).sum : Nat)) := by
  induction n generalizing i crc_sum with
  | zero => simp [crcLoop]
  | succ n ih =>
    have e : ((i : Int) + 1) = ((i + 1 : Nat) : Int) := by push_cast; ring
    rw [crcLoop, elemAt_tokens chunk i (by omega)]
    simp only [bind, Except.bind]
    rw [stoi_formatHex _ (byteAt_lt chunk i)]
    simp only [e]
    rw [ih (i + 1) _ (by omega)]
    simp [List.range'_succ]
    ring

theorem toUnsigned_land (n : Nat) : toUnsigned (Int.land (n : Int) 0xFF) = n % 256 := by
  have e : Int.land (n : Int) 0xFF = ((n &&& 255 : Nat) : Int) := rfl
  have e2 : n &&& 255 = n % 256 := Nat.and_pow_two_sub_one_eq_mod n 8
  rw [e, e2]
  unfold toUnsigned
  omega

theorem decodeFrame_tokens (chunk : List Byte) (h : WellFormed chunk) :
    decodeFrame (chunk.map token) = .ok (reportOf chunk) := by
  unfold WellFormed at h
  have e0 := elemAt_tokens chunk 0 (by omega)
  have e1 := elemAt_tokens chunk 1 (by omega)
  have e2 := elemAt_tokens chunk 2 (by omega)
  have e3 := elemAt_tokens chunk (byteAt chunk 2 + 3) (by omega)
  have eL := stoi_formatHex _ (byteAt_lt chunk 2)
  have eT := extractHex_formatHex _ (byteAt_lt chunk 1)
  have eS : crcLoop (chunk.map token) (byteAt chunk 2 + 2) 1 0
      = .ok ((((List.range' 1 (byteAt chunk 2 + 2)).map (byteAt chunk)).sum : Nat) : Int) := by
    have := crcLoop_tokens chunk (byteAt chunk 2 + 2) 1 0 (by omega)
    rw [zero_add] at this
    exact_mod_cast this
  have eN : ((byteAt chunk 2 : Int) + 3 - 1).toNat = byteAt chunk 2 + 2 := by omega
  have eR : (0 : Int) ≤ (byteAt chunk 2 : Int) ∧
      3 + (byteAt chunk 2 : Int) ≤ ((chunk.map token).length : Int) := by
    simp only [List.length_map]; omega
  push_cast at e0 e1 e2 e3
  have eB : byteSum chunk 1 (2 + byteAt chunk 2)
      = ((List.range' 1 (byteAt chunk 2 + 2)).map (byteAt chunk)).sum := by
    unfold byteSum
    have : 2 + byteAt chunk 2 + 1 - 1 = byteAt chunk 2 + 2 := by omega
    rw [this]
  have eP : 3 + byteAt chunk 2 = byteAt chunk 2 + 3 := by omega
  have eV : ∀ a b : Nat, a < 256 → b < 256 →
      decide (formatHex a = formatHex b) = decide (a = b) := by
    intro a b ha hb
    by_cases hab : a = b
    · simp [hab]
    · have : formatHex a ≠ formatHex b := fun hh => hab (formatHex_inj a b ha hb hh)
      simp [hab, this]
  unfold decodeFrame reportOf
  simp only [e0, e1, e2, bind, Except.bind, eL, eT, subVector, eR, and_self, if_true, e3, eN, eS,
    pure, Except.pure, zero_add, Int.toNat_ofNat, toUnsigned_land, eB, eP]
  rw [eV _ _ (Nat.mod_lt _ (by norm_num)) (byteAt_lt _ _)]


theorem handleChunk_wellFormed (chunk : List Byte) (h : WellFormed chunk) (opened : Bool)
    (pre : Str) :
    handleChunk { csvOpen := opened, csvFile := pre, clientData := [] } chunk
      = .ok (reportOf chunk,
             { csvOpen := opened,
               csvFile := if opened then pre ++ csvRecord chunk else pre,
               clientData := [] }) := by
  unfold handleChunk
  rw [foldl_storeByte]
  cases opened <;>
    simp [csvWrite, decodeFrame_tokens chunk h, bind, Except.bind, pure, Except.pure, csvRecord]

theorem decode_wellFormed (chunk : List Byte) (h : WellFormed chunk) :
    decode chunk = .ok (reportOf chunk) := by
  unfold decode Server.start Server.afterOpen
  rw [handleChunk_wellFormed chunk h]
  rfl

theorem wellFormed_length (chunk : List Byte) (h : WellFormed chunk) : 4 ≤ chunk.length := by
  unfold WellFormed at h; omega

theorem readLoop_wellFormed (chunks : List (List Byte)) (h : ∀ c ∈ chunks, WellFormed c)
    (opened : Bool) (pre : Str) :
    readLoop chunks { csvOpen := opened, csvFile := pre, clientData := [] }
      = .ok (chunks.map reportOf,
             { csvOpen := opened,
               csvFile := if opened then pre ++ (chunks.map csvRecord).flatten else pre,
               clientData := [] }) := by
  induction chunks generalizing pre with
  | nil => cases opened <;> simp [readLoop]
  | cons c cs ih =>
    have hc : WellFormed c := h c (List.mem_cons_self _ _)
    have hl : c.length ≠ 0 := by have := wellFormed_length c hc; omega
    have hcs : ∀ d ∈ cs, WellFormed d := fun d hd => h d (List.mem_cons_of_mem _ hd)
    rw [readLoop]
    simp only [hl, if_false, handleChunk_wellFormed c hc, bind, Except.bind, ih hcs, pure,
      Except.pure, List.map_cons, List.flatten_cons]
    cases opened <;> simp

/-! ## Sums over positions -/

theorem byteAt_eq_getElem (chunk : List Byte) (i : Nat) (h : i < chunk.length) :
    byteAt chunk i = (chunk[i]).val := by
  simp [byteAt, List.getD, h]

theorem map_byteAt_range' (chunk : List Byte) (i n : Nat) (h : i + n ≤ chunk.length) :
    (List.range' i n).map (byteAt chunk) = ((chunk.drop i).take n).map Fin.val := by
  induction n generalizing i with
  | zero => simp
  | succ n ih =>
    have hi : i < chunk.length := by omega
    rw [List.range'_succ, List.map_cons, ih (i + 1) (by omega), List.drop_eq_getElem_cons hi,
      List.take_succ_cons, List.map_cons, byteAt_eq_getElem chunk i hi]

theorem map_token_range' (chunk : List Byte) (i n : Nat) (h : i + n ≤ chunk.length) :
    ((chunk.map token).drop i).take n
      = (List.range' i n).map (fun k => formatHex (byteAt chunk k)) := by
  induction n generalizing i with
  | zero => simp
  | succ n ih =>
    have hi : i < chunk.length := by omega
    have hi2 : i < (chunk.map token).length := by simpa using hi
    rw [List.range'_succ, List.map_cons, ← ih (i + 1) (by omega),
      List.drop_eq_getElem_cons hi2, List.take_succ_cons, byteAt_eq_getElem chunk i hi]
    simp [token]

theorem sum_range'_congr (f g : Nat → Nat) (i n : Nat)
    (h : ∀ k, i ≤ k → k < i + n → g k = f k) :
    ((List.range' i n).map g).sum = ((List.range' i n).map f).sum := by
  induction n generalizing i with
  | zero => simp
  | succ n ih =>
    rw [List.range'_succ, List.map_cons, List.map_cons, List.sum_cons, List.sum_cons,
      h i (le_refl _) (by omega), ih (i + 1) (fun k h1 h2 => h k (by omega) (by omega))]

theorem sum_range'_update (f g : Nat → Nat) (p : Nat) (hfg : ∀ k, k ≠ p → g k = f k)
    (i n : Nat) (hp1 : i ≤ p) (hp2 : p < i + n) :
    ((List.range' i n).map g).sum + f p = ((List.range' i n).map f).sum + g p := by
  induction n generalizing i with
  | zero => omega
  | succ n ih =>
    rw [List.range'_succ, List.map_cons, List.map_cons, List.sum_cons, List.sum_cons]
    by_cases hip : i = p
    · subst hip
      rw [sum_range'_congr f g (i + 1) n (fun k h1 _ => hfg k (by omega))]
      omega
    · have := ih (i + 1) (by omega) (by omega)
      rw [hfg i hip]
      omega

theorem byteAt_set (chunk : List Byte) (p : Nat) (b : Byte) (hp : p < chunk.length) (k : Nat) :
    byteAt (chunk.set p b) k = if k = p then b.val else byteAt chunk k := by
  unfold byteAt
  by_cases hk : k = p
  · subst hk; simp [List.getD, hp]
  · simp [List.getD, hk, List.getElem?_set, Ne.symm hk]

theorem land_0xFF (n : Nat) : Int.land (n : Int) 0xFF = ((n % 256 : Nat) : Int) := by
  have e : Int.land (n : Int) 0xFF = ((n &&& 255 : Nat) : Int) := rfl
  rw [e, show n &&& 255 = n % 256 from Nat.and_pow_two_sub_one_eq_mod n 8]

theorem frame_facts (header type length : Byte) (payload : List Byte) (checksum : Byte)
    (hL : payload.length = length.val) :
    WellFormed (frame header type length payload checksum)
    ∧ byteAt (frame header type length payload checksum) 2 = length.val
    ∧ byteAt (frame header type length payload checksum) (3 + length.val) = checksum.val
    ∧ byteSum (frame header type length payload checksum) 1 (2 + length.val)
        = type.val + length.val + sumBytes payload := by
  have e2 : byteAt (frame header type length payload checksum) 2 = length.val := rfl
  have el : (frame header type length payload checksum).length = 4 + length.val := by
    simp [frame, hL]; omega
  refine ⟨?_, e2, ?_, ?_⟩
  · unfold WellFormed; rw [e2, el]
  · rw [byteAt_eq_getElem _ _ (by omega)]
    simp [frame, ← hL, show 3 + payload.length = payload.length + 1 + 1 + 1 by omega]
  · unfold byteSum
    rw [map_byteAt_range' _ _ _ (by omega)]
    have : 2 + length.val + 1 - 1 = payload.length + 1 + 1 := by omega
    rw [this]
    simp [frame, sumBytes, ← hL, List.take_append_of_le_length]
    ring

/-! # Claims -/

/-- C1: for every chunk of at least `4 + L` bytes, `L` the value of byte 2, the decoder
returns a report, and the report says "valid" exactly when the byte at position `3 + L`
equals the sum of the bytes at positions `1 .. 2 + L` modulo 256. The comparison the
code makes on the two hexadecimal strings agrees with the comparison of the two
integers, and `crc_sum & 0xFF` is `crc_sum mod 256`. -/
theorem checksum_valid_iff (chunk : List Byte) (h : 4 + byteAt chunk 2 ≤ chunk.length) :
    ∃ r, decode chunk = .ok r
      ∧ (r.valid = true ↔
          byteAt chunk (3 + byteAt chunk 2) = byteSum chunk 1 (2 + byteAt chunk 2) % 256)
      ∧ r.checksum = formatHex (byteSum chunk 1 (2 + byteAt chunk 2) % 256)
      ∧ r.CRC = formatHex (byteAt chunk (3 + byteAt chunk 2))
      ∧ (r.checksum = r.CRC ↔
          byteSum chunk 1 (2 + byteAt chunk 2) % 256 = byteAt chunk (3 + byteAt chunk 2))
      ∧ Int.land (byteSum chunk 1 (2 + byteAt chunk 2) : Int) 0xFF
          = ((byteSum chunk 1 (2 + byteAt chunk 2) % 256 : Nat) : Int) := by
  refine ⟨reportOf chunk, decode_wellFormed chunk h, ?_, rfl, rfl, ?_, land_0xFF _⟩
  · simp only [reportOf, decide_eq_true_eq]
    exact eq_comm
  · simp only [reportOf]
    constructor
    · exact formatHex_inj _ _ (Nat.mod_lt _ (by norm_num)) (byteAt_lt _ _)
    · intro e; rw [e]

/-- Witness of C1 at the chunk `02 17 02 ab cd 91`. -/
theorem checksum_valid_iff_witness :
    4 + byteAt [0x02, 0x17, 0x02, 0xAB, 0xCD, 0x91] 2
        ≤ ([0x02, 0x17, 0x02, 0xAB, 0xCD, 0x91] : List Byte).length
      ∧ ∃ r, decode [0x02, 0x17, 0x02, 0xAB, 0xCD, 0x91] = .ok r ∧ r.valid = true := by
  refine ⟨by decide, ?_⟩
  obtain ⟨r, hr, hv, _⟩ := checksum_valid_iff [0x02, 0x17, 0x02, 0xAB, 0xCD, 0x91] (by decide)
  exact ⟨r, hr, hv.mpr (by decide)⟩

/-- C2 as amended: the frame `[header, 0x17, L, P..., c]` with `L` payload bytes `P` and
`c = (0x17 + L + sum(P)) mod 256`, the length byte included in the sum, is reported
"valid". -/
theorem tag_frame_valid (header length : Byte) (payload : List Byte) (c : Byte)
    (hL : payload.length = length.val)
    (hc : c.val = (0x17 + length.val + sumBytes payload) % 256) :
    ∃ r, decode (frame header 0x17 length payload c) = .ok r ∧ r.valid = true := by
  obtain ⟨hwf, e2, e3, e4⟩ := frame_facts header 0x17 length payload c hL
  refine ⟨_, decode_wellFormed _ hwf, ?_⟩
  simp only [reportOf, e2, e3, e4, decide_eq_true_eq, hc]
  rfl

/-- Witness of C2 as amended: one payload byte `05`, checksum `0x17 + 1 + 5 = 0x1d`. -/
theorem tag_frame_valid_witness :
    ∃ r, decode (frame 0x02 0x17 0x01 [0x05] 0x1D) = .ok r ∧ r.valid = true :=
  tag_frame_valid 0x02 0x01 [0x05] 0x1D (by decide) (by decide)

/-- C2 as stated fails: with one payload byte `00` and `c = (0x17 + sum(P)) mod 256 = 0x17`
the decoder sums `0x17 + 0x01 + 0x00 = 0x18` and reports "invalid". -/
theorem tag_frame_without_length_invalid :
    ((0x17 : Byte).val = (0x17 + sumBytes [0x00]) % 256)
      ∧ ∃ r, decode (frame 0x02 0x17 0x01 [0x00] 0x17) = .ok r
          ∧ r.valid = false ∧ r.checksum = ['1', '8'] ∧ r.CRC = ['1', '7'] := by
  refine ⟨by decide, ?_⟩
  exact ⟨_, rfl, rfl, rfl, rfl⟩

/-- C3 as amended: `(0x17 + 0x02 + 0xAB + 0xCD) mod 256` is `0x91`, not `0x4D`. Decoding
`[0x02, 0x17, 0x02, 0xAB, 0xCD, 0x91]` reports type tag-read, payload `[ab, cd]` and
checksum valid; decoding `[0x02, 0x17, 0x02, 0xAB, 0xCD, 0x4D]` reports the same type
and payload and checksum invalid. -/
theorem end_to_end_example :
    (0x17 + 0x02 + 0xAB + 0xCD) % 256 = 0x91
      ∧ (∃ r, decode [0x02, 0x17, 0x02, 0xAB, 0xCD, 0x91] = .ok r
          ∧ r.event = Event.tagRead ∧ r.Data = [token 0xAB, token 0xCD] ∧ r.valid = true)
      ∧ (∃ r, decode [0x02, 0x17, 0x02, 0xAB, 0xCD, 0x4D] = .ok r
          ∧ r.event = Event.tagRead ∧ r.Data = [token 0xAB, token 0xCD] ∧ r.valid = false) :=
  ⟨by decide, ⟨_, rfl, rfl, rfl, rfl⟩, ⟨_, rfl, rfl, rfl, rfl⟩⟩

/-- C3 as stated fails: no report of the chunk `[0x02, 0x17, 0x02, 0xAB, 0xCD, 0x4D]`
says checksum valid; the computed checksum is `91` and the received one `4d`. -/
theorem end_to_end_0x4D_not_valid :
    ¬ ∃ r, decode [0x02, 0x17, 0x02, 0xAB, 0xCD, 0x4D] = .ok r
        ∧ r.event = Event.tagRead ∧ r.Data = [token 0xAB, token 0xCD] ∧ r.valid = true := by
  rintro ⟨r, hr, -, -, hv⟩
  have e : decode [0x02, 0x17, 0x02, 0xAB, 0xCD, 0x4D]
      = .ok (reportOf [0x02, 0x17, 0x02, 0xAB, 0xCD, 0x4D]) := rfl
  rw [e] at hr
  have e2 : r = reportOf [0x02, 0x17, 0x02, 0xAB, 0xCD, 0x4D] := (Except.ok.inj hr).symm
  rw [e2] at hv
  exact absurd hv (by decide)

/-- C4: in a well-formed chunk that the decoder reports "valid", replacing the type byte
(position 1) or one payload byte (a position in `[3, 3 + L)`) by a different value, every
other byte unchanged, gives a chunk the decoder reports "invalid". -/
theorem single_byte_change_invalid (chunk : List Byte) (p : Nat) (b : Byte)
    (hwf : 4 + byteAt chunk 2 ≤ chunk.length)
    (hvalid : ∃ r, decode chunk = .ok r ∧ r.valid = true)
    (hp : p = 1 ∨ (3 ≤ p ∧ p < 3 + byteAt chunk 2))
    (hb : b.val ≠ byteAt chunk p) :
    ∃ r, decode (chunk.set p b) = .ok r ∧ r.valid = false := by
  obtain ⟨r, hr, hv⟩ := hvalid
  rw [decode_wellFormed chunk hwf] at hr
  have er : r = reportOf chunk := (Except.ok.inj hr).symm
  rw [er] at hv
  simp only [reportOf, decide_eq_true_eq] at hv
  have hpl : p < chunk.length := by omega
  have h2 : byteAt (chunk.set p b) 2 = byteAt chunk 2 := by
    rw [byteAt_set chunk p b hpl]; simp; omega
  have hwf2 : WellFormed (chunk.set p b) := by
    unfold WellFormed; rw [h2, List.length_set]; exact hwf
  have h3 : byteAt (chunk.set p b) (3 + byteAt chunk 2) = byteAt chunk (3 + byteAt chunk 2) := by
    rw [byteAt_set chunk p b hpl]; simp; omega
  have hs := sum_range'_update (byteAt chunk) (byteAt (chunk.set p b)) p
    (fun k hk => by rw [byteAt_set chunk p b hpl]; simp [hk])
    1 (2 + byteAt chunk 2 + 1 - 1) (by omega) (by omega)
  have hpp : byteAt (chunk.set p b) p = b.val := by rw [byteAt_set chunk p b hpl]; simp
  refine ⟨_, decode_wellFormed _ hwf2, ?_⟩
  simp only [reportOf, h2, h3, decide_eq_false_iff_not]
  unfold byteSum at hv ⊢
  rw [hpp] at hs
  have hlt := byteAt_lt chunk p
  have hblt := b.isLt
  omega

/-- Witness of C4: in the valid chunk `02 17 02 ab cd 91` the payload byte at position 3
is replaced by `ac`. -/
theorem single_byte_change_invalid_witness :
    ∃ r, decode (([0x02, 0x17, 0x02, 0xAB, 0xCD, 0x91] : List Byte).set 3 0xAC) = .ok r
      ∧ r.valid = false :=
  single_byte_change_invalid [0x02, 0x17, 0x02, 0xAB, 0xCD, 0x91] 3 0xAC (by decide)
    ⟨_, rfl, rfl⟩ (Or.inr (by decide)) (by decide)

theorem classify_cases (t : Nat) :
    (classify (t : Int) = Event.connectionEstablished ↔ t = 0x3A)
      ∧ (classify (t : Int) = Event.tagRead ↔ t = 0x17)
      ∧ (classify (t : Int) = Event.heartbeat ↔ t = 0x40)
      ∧ (classify (t : Int) = Event.unrecognized ↔ (t ≠ 0x3A ∧ t ≠ 0x17 ∧ t ≠ 0x40)) := by
  unfold classify
  by_cases h1 : t = 0x3A
  · subst h1; simp
  · by_cases h2 : t = 0x17
    · subst h2; simp
    · by_cases h3 : t = 0x40
      · subst h3; simp
      · have e1 : ¬ ((t : Int) = 0x3a) := by omega
        have e2 : ¬ ((t : Int) = 0x17) := by omega
        have e3 : ¬ ((t : Int) = 0x40) := by omega
        simp [h1, h2, h3, e1, e2, e3]

/-- C5: for every byte value `t`, the integer the code extracts from the token of `t`
is `t`; and for every well-formed chunk whose type byte is `t` the decoder reports
`TYPE = t` and takes the branch connection-established exactly when `t = 0x3A`, tag-read
exactly when `t = 0x17`, heartbeat exactly when `t = 0x40`, and unrecognized exactly for
every other value. -/
theorem type_classification (t : Byte) :
    extractHex (token t) = (t.val : Int)
      ∧ ∀ chunk : List Byte, 4 + byteAt chunk 2 ≤ chunk.length → byteAt chunk 1 = t.val →
          ∃ r, decode chunk = .ok r ∧ r.TYPE = (t.val : Int)
            ∧ (r.event = Event.connectionEstablished ↔ t.val = 0x3A)
            ∧ (r.event = Event.tagRead ↔ t.val = 0x17)
            ∧ (r.event = Event.heartbeat ↔ t.val = 0x40)
            ∧ (r.event = Event.unrecognized ↔ (t.val ≠ 0x3A ∧ t.val ≠ 0x17 ∧ t.val ≠ 0x40)) := by
  refine ⟨extractHex_formatHex t.val t.isLt, ?_⟩
  intro chunk hwf ht
  refine ⟨_, decode_wellFormed chunk hwf, ?_, ?_⟩
  · simp only [reportOf, ht]
  · simp only [reportOf, ht]
    exact classify_cases t.val

/-- Witness of C5: the heartbeat frame `02 40 00 40`. -/
theorem type_classification_witness :
    ∃ r, decode [0x02, 0x40, 0x00, 0x40] = .ok r ∧ r.TYPE = 0x40
      ∧ r.event = Event.heartbeat := by
  obtain ⟨r, hr, ht, _, _, hh, _⟩ :=
    (type_classification 0x40).2 [0x02, 0x40, 0x00, 0x40] (by decide) (by decide)
  exact ⟨r, hr, ht, hh.mpr (by decide)⟩

/-- C6: for every well-formed chunk the decoder returns a report whose header is the
token of byte 0, whose length is `L` (the value of byte 2), whose payload is exactly the
`L` tokens of the bytes at positions `3 .. 3 + L - 1` in order, and whose checksum field
is the token of the byte at position `3 + L`. -/
theorem field_extraction (chunk : List Byte) (h : 4 + byteAt chunk 2 ≤ chunk.length) :
    ∃ r, decode chunk = .ok r
      ∧ r.Head = token (chunk.getD 0 0)
      ∧ r.Len_int = (byteAt chunk 2 : Int)
      ∧ r.Data.length = byteAt chunk 2
      ∧ r.Data = (List.range' 3 (byteAt chunk 2)).map (fun k => token (chunk.getD k 0))
      ∧ r.CRC = token (chunk.getD (3 + byteAt chunk 2) 0) := by
  have hd := map_token_range' chunk 3 (byteAt chunk 2) (by omega)
  refine ⟨_, decode_wellFormed chunk h, rfl, rfl, ?_, ?_, rfl⟩
  · simp only [reportOf, hd, List.length_map, List.length_range']
  · simp only [reportOf, hd]
    rfl

/-- Witness of C6 at the chunk `02 17 02 ab cd 91`. -/
theorem field_extraction_witness :
    ∃ r, decode [0x02, 0x17, 0x02, 0xAB, 0xCD, 0x91] = .ok r
      ∧ r.Head = ['0', '2'] ∧ r.Len_int = 2 ∧ r.Data = [['a', 'b'], ['c', 'd']]
      ∧ r.CRC = ['9', '1'] := by
  obtain ⟨r, hr, h0, hl, _, hd, hc⟩ :=
    field_extraction [0x02, 0x17, 0x02, 0xAB, 0xCD, 0x91] (by decide)
  exact ⟨r, hr, h0, hl, hd, hc⟩

theorem digitChar_mem (d : Nat) (h : d < 16) :
    Nat.digitChar d ∈ "0123456789abcdef".toList := by
  interval_cases d <;> decide

/-- C7: for every byte value `b`, the token the read loop builds for `b` has two
characters, both among `0-9a-f`, its first digit is `b / 16` and its second `b mod 16`,
and `std::stoi(token, nullptr, 16)` returns `b` without throwing. -/
theorem hex_round_trip (b : Byte) :
    stoi (formatHex b.val) = .ok (b.val : Int)
      ∧ (formatHex b.val).length = 2
      ∧ (∀ c ∈ formatHex b.val, c ∈ "0123456789abcdef".toList)
      ∧ formatHex b.val = [Nat.digitChar (b.val / 16), Nat.digitChar (b.val % 16)] := by
  have e := formatHex_of_lt_256 b.val b.isLt
  refine ⟨stoi_formatHex b.val b.isLt, ?_, ?_, e⟩
  · rw [e]; rfl
  · intro c hc
    rw [e] at hc
    have hb := b.isLt
    rcases List.mem_cons.mp hc with h1 | h1
    · rw [h1]; exact digitChar_mem _ (by omega)
    · rw [List.mem_singleton.mp h1]; exact digitChar_mem _ (Nat.mod_lt _ (by norm_num))

theorem probeLoop_finds (canOpen : Str → Bool) (baseFilename : Str) (N : Nat)
    (hN : N < 2147483647) (hfree : canOpen (numberedName baseFilename N) = false) :
    ∀ (fuel identifier : Nat), identifier ≤ N → N - identifier < fuel →
      (∀ m, identifier ≤ m → m < N → canOpen (numberedName baseFilename m) = true) →
      probeLoop canOpen baseFilename fuel identifier = .ok (numberedName baseFilename N) := by
  intro fuel
  induction fuel with
  | zero => intro identifier _ h; omega
  | succ fuel ih =>
    intro identifier hle hfuel hall
    have hb : ¬ (2147483647 ≤ identifier) := by omega
    rw [probeLoop]
    simp only [hb, if_false]
    by_cases hid : identifier = N
    · subst hid; simp [hfree]
    · have ho := hall identifier (le_refl _) (by omega)
      simp only [ho, if_true]
      exact ih (identifier + 1) (by omega) (by omega) (fun m h1 h2 => hall m (by omega) h2)

theorem probeLoop_overflow (canOpen : Str → Bool) (baseFilename : Str) :
    ∀ (fuel identifier : Nat),
      (∀ m, identifier ≤ m → m < 2147483647 → canOpen (numberedName baseFilename m) = true) →
      probeLoop canOpen baseFilename fuel identifier = .error .intOverflow := by
  intro fuel
  induction fuel with
  | zero => intro identifier _; rfl
  | succ fuel ih =>
    intro identifier hall
    rw [probeLoop]
    by_cases hb : 2147483647 ≤ identifier
    · simp [hb]
    · simp only [hb, if_false, hall identifier (le_refl _) (by omega), if_true]
      exact ih (identifier + 1) (fun m h1 h2 => hall m (by omega) h2)

theorem numberedName_length_le (m : Nat) (h : m < 2147483647) :
    (numberedName [] m).length ≤ 15 := by
  have := Nat.toDigitsCore_length 10 (by decide) (m + 1) m 10 (by omega) (by decide)
  simp only [numberedName, decimalText, Nat.toDigits, List.length_append, List.length_cons,
    List.length_nil, List.nil_append]
  omega

theorem generateNewFilename_first_refused (canOpen : Str → Bool) (baseFilename : Str)
    (h : ∃ n, 1 ≤ n ∧ n < 2147483647 ∧ canOpen (numberedName baseFilename n) = false) :
    ∃ N, 1 ≤ N
      ∧ generateNewFilename canOpen baseFilename = .ok (numberedName baseFilename N)
      ∧ canOpen (numberedName baseFilename N) = false
      ∧ (∀ m, 1 ≤ m → m < N → canOpen (numberedName baseFilename m) = true)
      ∧ (canOpen (numberedName baseFilename 1) = true →
          canOpen (numberedName baseFilename 2) = false → N = 2) := by
  have h' : ∃ n, 1 ≤ n ∧ canOpen (numberedName baseFilename n) = false := by
    obtain ⟨n, a, _, c⟩ := h
    exact ⟨n, a, c⟩
  obtain ⟨n, hn1, hn2, hn3⟩ := h
  have hspec := Nat.find_spec h'
  have hmin : ∀ m, 1 ≤ m → m < Nat.find h' →
      canOpen (numberedName baseFilename m) = true := by
    intro m hm1 hm2
    have := Nat.find_min h' hm2
    by_contra hc
    exact this ⟨hm1, by simpa using hc⟩
  have hle : Nat.find h' ≤ n := Nat.find_min' h' ⟨hn1, hn3⟩
  refine ⟨Nat.find h', hspec.1, ?_, hspec.2, hmin, ?_⟩
  · exact probeLoop_finds canOpen baseFilename (Nat.find h') (by omega) hspec.2
      2147483647 1 hspec.1 (by omega) hmin
  · intro e1 e2
    have a : Nat.find h' ≤ 2 := Nat.find_min' h' ⟨by norm_num, e2⟩
    have b : Nat.find h' ≠ 1 := by
      intro e
      have := hspec.2
      rw [e, e1] at this
      exact Bool.noConfusion this
    omega

theorem fileExists_eq_ifstreamOpens (fs : Str → FileState) (name : Str)
    (h : fs name ≠ FileState.unreadable) : fileExists fs name = ifstreamOpens fs name := by
  unfold fileExists ifstreamOpens
  cases hs : fs name
  · simp
  · exact absurd hs h
  · simp

/-- C9 as amended: for every base name and every file system in which some
`<base>_<n>.csv` with `1 ≤ n ≤ 2147483646` cannot be opened for reading (it does not
exist, or it exists and is unreadable), `generateNewFilename` returns `<base>_<N>.csv`
for the smallest positive `N` whose file cannot be opened for reading. The returned name
is never a file that can be opened for reading, and when `_1.csv` can be opened and
`_2.csv` cannot, `N = 2`. When none of the files `<base>_<m>.csv` is unreadable, `N` is
the smallest positive integer whose file does not exist, and the returned name is not an
existing file. -/
theorem generateNewFilename_smallest (fs : Str → FileState) (baseFilename : Str)
    (h : ∃ n, 1 ≤ n ∧ n < 2147483647
      ∧ ifstreamOpens fs (numberedName baseFilename n) = false) :
    ∃ N, 1 ≤ N
      ∧ generateNewFilename (ifstreamOpens fs) baseFilename
          = .ok (numberedName baseFilename N)
      ∧ ifstreamOpens fs (numberedName baseFilename N) = false
      ∧ (∀ m, 1 ≤ m → m < N → ifstreamOpens fs (numberedName baseFilename m) = true)
      ∧ (ifstreamOpens fs (numberedName baseFilename 1) = true →
          ifstreamOpens fs (numberedName baseFilename 2) = false → N = 2)
      ∧ ((∀ m, fs (numberedName baseFilename m) ≠ FileState.unreadable) →
          fileExists fs (numberedName baseFilename N) = false
            ∧ ∀ m, 1 ≤ m → m < N → fileExists fs (numberedName baseFilename m) = true) := by
  obtain ⟨N, h1, h2, h3, h4, h5⟩ :=
    generateNewFilename_first_refused (ifstreamOpens fs) baseFilename h
  refine ⟨N, h1, h2, h3, h4, h5, ?_⟩
  intro hread
  refine ⟨?_, ?_⟩
  · rw [fileExists_eq_ifstreamOpens fs _ (hread N)]; exact h3
  · intro m hm1 hm2
    rw [fileExists_eq_ifstreamOpens fs _ (hread m)]; exact h4 m hm1 hm2

/-- Witness of C9 as amended: only `log_1.csv` exists and it is readable; the result is
`log_2.csv`, which does not exist. -/
theorem generateNewFilename_smallest_witness :
    ∃ N, 1 ≤ N
      ∧ generateNewFilename (ifstreamOpens readableLog1) "log".toList
          = .ok (numberedName "log".toList N)
      ∧ N = 2
      ∧ fileExists readableLog1 (numberedName "log".toList N) = false := by
  obtain ⟨N, h1, h2, _, _, h5, h6⟩ := generateNewFilename_smallest
    readableLog1 "log".toList ⟨2, by decide⟩
  have hread : ∀ m, readableLog1 (numberedName "log".toList m) ≠ FileState.unreadable := by
    intro m
    unfold readableLog1
    split <;> simp
  exact ⟨N, h1, h2, h5 (by decide) (by decide), (h6 hread).1⟩

/-- C9 as stated fails, in two ways. (1) The loop tests whether the file can be opened
for reading, not whether it exists: when `log_1.csv` exists but is unreadable and no
other file exists, the smallest number whose file does not exist is 2, yet
`generateNewFilename` returns `log_1.csv`, the name of an existing file. (2) `identifier`
is an `int`: in a directory holding a readable `_<n>.csv` for every `n < 10000000000`,
the file `_10000000000.csv` does not exist, but `identifier` reaches the largest `int`
and `identifier++` overflows, so no name is returned. -/
theorem generateNewFilename_not_by_existence :
    ((fileExists unreadableLog1 (numberedName "log".toList 1) = true
        ∧ fileExists unreadableLog1 (numberedName "log".toList 2) = false)
      ∧ generateNewFilename (ifstreamOpens unreadableLog1) "log".toList
          = .ok "log_1.csv".toList)
    ∧ ((∃ n, 1 ≤ n ∧ fileExists crowdedDirectory (numberedName [] n) = false)
      ∧ generateNewFilename (ifstreamOpens crowdedDirectory) []
          = .error .intOverflow) := by
  refine ⟨⟨⟨by decide, by decide⟩, ?_⟩, ⟨10000000000, by decide, by decide⟩, ?_⟩
  · exact probeLoop_finds (ifstreamOpens unreadableLog1) "log".toList 1 (by decide)
      (by decide) 2147483647 1 (le_refl _) (by decide) (fun m h1 h2 => by omega)
  · refine probeLoop_overflow _ [] 2147483647 1 (fun m _ hm => ?_)
    have := numberedName_length_le m hm
    simp [ifstreamOpens, crowdedDirectory, this]

/-- C10: for every sequence of well-formed chunks the read loop runs to the end and
yields exactly one report per chunk, in arrival order, each equal to the report of
decoding that chunk alone from an empty `clientData`; `clientData` is empty again after
every chunk (after every prefix of the sequence, whose reports are the corresponding
prefix of the reports). Nothing is assumed about the checksums, so a chunk reported
"invalid" neither ends the session nor changes a later report. This holds whether or
not the log file could be opened (`opened`); `Server.start` is the case `opened = true`. -/
theorem session_reports (chunks : List (List Byte))
    (h : ∀ c ∈ chunks, 4 + byteAt c 2 ≤ c.length) (opened : Bool) :
    ∃ reports s, readLoop chunks (Server.afterOpen opened) = .ok (reports, s)
      ∧ reports.length = chunks.length
      ∧ chunks.map decode = reports.map Except.ok
      ∧ s.clientData = []
      ∧ ∀ k, k ≤ chunks.length →
          ∃ sk, readLoop (chunks.take k) (Server.afterOpen opened) = .ok (reports.take k, sk)
            ∧ sk.clientData = [] := by
  refine ⟨_, _, readLoop_wellFormed chunks h opened [], ?_, ?_, rfl, ?_⟩
  · simp
  · rw [List.map_map]
    exact List.map_congr_left (fun c hc => decode_wellFormed c (h c hc))
  · intro k _
    have := readLoop_wellFormed (chunks.take k) (fun c hc => h c (List.mem_of_mem_take hc))
      opened []
    rw [List.map_take] at this
    exact ⟨_, this, rfl⟩

/-- Witness of C10: an invalid chunk (`02 17 00 00`) followed by a valid one
(`02 40 00 40`) gives two reports, the first invalid and the second valid. -/
theorem session_reports_witness :
    ∃ reports s, readLoop [[0x02, 0x17, 0x00, 0x00], [0x02, 0x40, 0x00, 0x40]] Server.start
        = .ok (reports, s)
      ∧ reports.length = 2
      ∧ reports.map Decoded.valid = [false, true]
      ∧ s.clientData = [] := by
  obtain ⟨reports, s, hr, hl, hd, hs, _⟩ :=
    session_reports [[0x02, 0x17, 0x00, 0x00], [0x02, 0x40, 0x00, 0x40]] (by decide) true
  refine ⟨reports, s, hr, hl, ?_, hs⟩
  have e : reports.map Except.ok
      = [Except.ok (reportOf [0x02, 0x17, 0x00, 0x00]),
         (Except.ok (reportOf [0x02, 0x40, 0x00, 0x40]) : Except Fault Decoded)] :=
    hd.symm.trans rfl
  match reports, e with
  | [a, b], e =>
    simp only [List.map_cons, List.map_nil, List.cons.injEq, Except.ok.injEq, and_true] at e
    rw [e.1, e.2]
    decide

/-! ## Chunks that are too short -/

theorem decode_eq_decodeFrame (chunk : List Byte) :
    decode chunk = decodeFrame (chunk.map token) := by
  unfold decode handleChunk Server.start Server.afterOpen
  have e : (csvWrite (List.foldl storeByte
      { csvOpen := true, csvFile := [], clientData := [] } chunk) ['\n']).clientData
      = chunk.map token := by
    rw [foldl_storeByte]; simp [csvWrite]
  simp only [e]
  cases decodeFrame (chunk.map token) <;> rfl

theorem decode_short (chunk : List Byte) (h : chunk.length < 3) :
    decode chunk = .error (.outOfRange (chunk.length : Int)) := by
  rw [decode_eq_decodeFrame]
  match chunk, h with
  | [], _ => rfl
  | [a], _ => rfl
  | [a, b], _ => rfl

theorem decode_badRange (chunk : List Byte) (h3 : 3 ≤ chunk.length)
    (h : chunk.length < 3 + byteAt chunk 2) : decode chunk = .error .badRange := by
  rw [decode_eq_decodeFrame]
  have e0 := elemAt_tokens chunk 0 (by omega)
  have e1 := elemAt_tokens chunk 1 (by omega)
  have e2 := elemAt_tokens chunk 2 (by omega)
  have eL := stoi_formatHex _ (byteAt_lt chunk 2)
  have eR : ¬ ((0 : Int) ≤ (byteAt chunk 2 : Int) ∧
      3 + (byteAt chunk 2 : Int) ≤ ((chunk.map token).length : Int)) := by
    simp only [List.length_map]; omega
  push_cast at e0 e1 e2
  unfold decodeFrame
  simp only [e0, e1, e2, bind, Except.bind, eL, subVector, eR, if_false]

theorem decode_checksum_missing (chunk : List Byte) (h : chunk.length = 3 + byteAt chunk 2) :
    decode chunk = .error (.outOfRange ((byteAt chunk 2 : Int) + 3)) := by
  rw [decode_eq_decodeFrame]
  have e0 := elemAt_tokens chunk 0 (by omega)
  have e1 := elemAt_tokens chunk 1 (by omega)
  have e2 := elemAt_tokens chunk 2 (by omega)
  have e3 := elemAt_tokens_ge chunk (byteAt chunk 2 + 3) (by omega)
  have eL := stoi_formatHex _ (byteAt_lt chunk 2)
  have eR : (0 : Int) ≤ (byteAt chunk 2 : Int) ∧
      3 + (byteAt chunk 2 : Int) ≤ ((chunk.map token).length : Int) := by
    simp only [List.length_map]; omega
  push_cast at e0 e1 e2 e3
  unfold decodeFrame
  simp only [e0, e1, e2, bind, Except.bind, eL, subVector, eR, and_self, if_true, e3]

/-- C11: for every chunk of `n` bytes (in particular `1 ≤ n ≤ 1024`), with `L` the value
of byte 2, the decoder completes with a report if and only if `n ≥ 3` and `n ≥ 4 + L`.
When that fails, the run stops at an access outside `clientData`: an index not below `n`,
or the iterator range of `Data`; no other fault occurs. A chunk with `n = 3 + L` stops at
the checksum access `clientData[Len_int + 3]`. -/
theorem decode_completes_iff (chunk : List Byte) :
    ((∃ r, decode chunk = .ok r) ↔ (3 ≤ chunk.length ∧ 4 + byteAt chunk 2 ≤ chunk.length))
      ∧ (¬ (3 ≤ chunk.length ∧ 4 + byteAt chunk 2 ≤ chunk.length) →
          decode chunk = .error .badRange
            ∨ ∃ i : Int, (chunk.length : Int) ≤ i ∧ decode chunk = .error (.outOfRange i))
      ∧ (chunk.length = 3 + byteAt chunk 2 →
          decode chunk = .error (.outOfRange ((byteAt chunk 2 : Int) + 3))) := by
  have hfault : ¬ (3 ≤ chunk.length ∧ 4 + byteAt chunk 2 ≤ chunk.length) →
      decode chunk = .error .badRange
        ∨ ∃ i : Int, (chunk.length : Int) ≤ i ∧ decode chunk = .error (.outOfRange i) := by
    intro hn
    by_cases h3 : chunk.length < 3
    · exact Or.inr ⟨_, le_refl _, decode_short chunk h3⟩
    · by_cases hr : chunk.length < 3 + byteAt chunk 2
      · exact Or.inl (decode_badRange chunk (by omega) hr)
      · exact Or.inr ⟨_, by omega, decode_checksum_missing chunk (by omega)⟩
  refine ⟨⟨?_, ?_⟩, hfault, decode_checksum_missing chunk⟩
  · rintro ⟨r, hr⟩
    by_contra hn
    rcases hfault hn with e | ⟨i, _, e⟩
    · rw [e] at hr; exact Except.noConfusion hr
    · rw [e] at hr; exact Except.noConfusion hr
  · rintro ⟨_, h⟩
    exact ⟨_, decode_wellFormed chunk h⟩

/-- Witness of C11: the chunk `02 17 02 ab cd` has `n = 5 = 3 + L`; it is not decoded and
the run stops at `clientData[5]`, the checksum access. -/
theorem decode_completes_iff_witness :
    ([0x02, 0x17, 0x02, 0xAB, 0xCD] : List Byte).length
        = 3 + byteAt [0x02, 0x17, 0x02, 0xAB, 0xCD] 2
      ∧ decode [0x02, 0x17, 0x02, 0xAB, 0xCD] = .error (.outOfRange 5)
      ∧ (decode [0x02, 0x17, 0x02, 0xAB, 0xCD] = .error .badRange
          ∨ ∃ i : Int, 5 ≤ i ∧ decode [0x02, 0x17, 0x02, 0xAB, 0xCD] = .error (.outOfRange i)) :=
  ⟨by decide,
   (decode_completes_iff [0x02, 0x17, 0x02, 0xAB, 0xCD]).2.2 (by decide),
   (decode_completes_iff [0x02, 0x17, 0x02, 0xAB, 0xCD]).2.1 (by decide)⟩

/-- C12: two well-formed chunks with the same bytes at positions `1 .. 3 + L` (type,
length, payload, checksum), whatever their header bytes at position 0 and their bytes
after position `3 + L`, are both decoded, with the same validity verdict, the same
classification and the same payload (and the same type, length, received and computed
checksum). -/
theorem header_and_trailer_ignored (a b : List Byte)
    (ha : 4 + byteAt a 2 ≤ a.length) (hb : 4 + byteAt b 2 ≤ b.length)
    (hsame : ∀ i, 1 ≤ i → i ≤ 3 + byteAt a 2 → byteAt a i = byteAt b i) :
    ∃ ra rb, decode a = .ok ra ∧ decode b = .ok rb
      ∧ ra.valid = rb.valid ∧ ra.event = rb.event ∧ ra.Data = rb.Data
      ∧ ra.TYPE = rb.TYPE ∧ ra.Len_int = rb.Len_int ∧ ra.CRC = rb.CRC
      ∧ ra.checksum = rb.checksum := by
  have e1 : byteAt a 1 = byteAt b 1 := hsame 1 (le_refl _) (by omega)
  have e2 : byteAt a 2 = byteAt b 2 := hsame 2 (by omega) (by omega)
  have e3 : byteAt a (3 + byteAt a 2) = byteAt b (3 + byteAt a 2) :=
    hsame _ (by omega) (le_refl _)
  have es : byteSum a 1 (2 + byteAt a 2) = byteSum b 1 (2 + byteAt a 2) := by
    unfold byteSum
    exact sum_range'_congr (byteAt b) (byteAt a) 1 _ (fun k h1 h2 => hsame k h1 (by omega))
  have ed : ((a.map token).drop 3).take (byteAt a 2)
      = ((b.map token).drop 3).take (byteAt a 2) := by
    rw [map_token_range' a 3 _ (by omega), map_token_range' b 3 _ (by omega)]
    apply List.map_congr_left
    intro k hk
    have := List.mem_range'_1.mp hk
    rw [hsame k (by omega) (by omega)]
  refine ⟨_, _, decode_wellFormed a ha, decode_wellFormed b hb, ?_⟩
  simp only [reportOf, ← e1, ← e2, ← e3, ← es, ed, and_self]

/-- Witness of C12: `02 17 02 ab cd 91` and `ff 17 02 ab cd 91 00 55` differ in the header
and in two trailing bytes; both are reported valid, tag-read, with payload `ab cd`. -/
theorem header_and_trailer_ignored_witness :
    ∃ ra rb, decode [0x02, 0x17, 0x02, 0xAB, 0xCD, 0x91] = .ok ra
      ∧ decode [0xFF, 0x17, 0x02, 0xAB, 0xCD, 0x91, 0x00, 0x55] = .ok rb
      ∧ ra.valid = rb.valid ∧ ra.event = rb.event ∧ ra.Data = rb.Data := by
  obtain ⟨ra, rb, h1, h2, h3, h4, h5, _⟩ := header_and_trailer_ignored
    [0x02, 0x17, 0x02, 0xAB, 0xCD, 0x91] [0xFF, 0x17, 0x02, 0xAB, 0xCD, 0x91, 0x00, 0x55]
    (by decide) (by decide)
    (fun i h1 h2 => by
      have h3 : i ≤ 5 := h2
      interval_cases i <;> rfl)
  exact ⟨ra, rb, h1, h2, h3, h4, h5⟩

end TCPServer
